import Mathlib

/-!
Verification of the spanning-tree server subsystem
(`src/src/modules/m_spanningtree/treeserver.cpp`).

Each section shallowly embeds one cluster of C++ operations on `TreeServer`
as executable Lean definitions, and the theorems settle the specification
claims against those definitions.  Machine integers (`time_t`, `long`
millisecond timestamps) are modelled as `Nat`: all values involved are
clock readings and durations that are nonnegative and far from any
overflow boundary in the scenarios described by the specification.
-/

/-! ## Route computation (child constructor, treeserver.cpp lines 82-93)

A server node is modelled by its parent chain: `Root` is the local server
(`Utils->TreeRoot`, whose `Parent` is `NULL`), and `Child n p` is a server
named `n` whose parent node is `p`.  Pointer comparison against
`Utils->TreeRoot` in the C++ is modelled by equality with `Root`, which is
sound because no `Child` term equals `Root`.
-/

inductive TreeServer where
  | Root : TreeServer
  | Child (sname : String) (parent : TreeServer) : TreeServer
deriving DecidableEq

/-- Embeds `TreeServer::GetParent` (the root's `Parent` is `NULL`). -/
def GetParent : TreeServer → Option TreeServer
  | .Root => none
  | .Child _ p => some p

/-- Embeds the loop `while (Route->GetParent() != TreeRoot) Route = Route->GetParent();`
    from the child constructor.  The `Root` case is unreachable from the
    constructor (the loop only starts when `Route` is a non-root node). -/
def routeWalk : TreeServer → TreeServer
  | .Root => .Root
  | .Child n p => if p = .Root then .Child n p else routeWalk p

/-- Embeds the route initialisation of the child constructor:
    `Route = Above; if (Route == TreeRoot) Route = this; else while (...) ...`. -/
def computeRoute (self above : TreeServer) : TreeServer :=
  if above = .Root then self else routeWalk above

/-- Route stored in a freshly constructed node `Child sname above`
    (in the constructor, `this` is the new node and `Above` its parent). -/
def childRoute (sname : String) (above : TreeServer) : TreeServer :=
  computeRoute (.Child sname above) above

/-- Route function written from the specification text:
    `route(N) = N` if N is a direct child of root, otherwise
    `route(N) = route(parent(N))`. -/
def specRoute : TreeServer → TreeServer
  | .Root => .Root
  | .Child n p => if p = .Root then .Child n p else specRoute p

/-- Ancestor chain of a node, the node itself first, ending at `Root`. -/
def ancestors : TreeServer → List TreeServer
  | .Root => [.Root]
  | .Child n p => .Child n p :: ancestors p

theorem routeWalk_eq_specRoute (t : TreeServer) : routeWalk t = specRoute t := by
  induction t with
  | Root => rfl
  | Child n p ih =>
    by_cases h : p = TreeServer.Root
    · simp [routeWalk, specRoute, h]
    · simp [routeWalk, specRoute, h, ih]

theorem routeWalk_parent (t : TreeServer) (h : t ≠ TreeServer.Root) :
    GetParent (routeWalk t) = some TreeServer.Root := by
  induction t with
  | Root => exact absurd rfl h
  | Child n p ih =>
    by_cases hp : p = TreeServer.Root
    · simp [routeWalk, hp, GetParent]
    · simpa [routeWalk, hp] using ih hp

theorem routeWalk_mem_ancestors (t : TreeServer) (h : t ≠ TreeServer.Root) :
    routeWalk t ∈ ancestors t := by
  induction t with
  | Root => exact absurd rfl h
  | Child n p ih =>
    by_cases hp : p = TreeServer.Root
    · simp [routeWalk, hp, ancestors]
    · simp only [routeWalk, hp, if_neg, ancestors]
      exact List.mem_cons_of_mem _ (ih hp)

theorem routeWalk_unique (t : TreeServer) (h : t ≠ TreeServer.Root) :
    ∀ x ∈ ancestors t, GetParent x = some TreeServer.Root → x = routeWalk t := by
  induction t with
  | Root => exact absurd rfl h
  | Child n p ih =>
    intro x hx hpar
    by_cases hp : p = TreeServer.Root
    · subst hp
      simp only [ancestors, List.mem_cons, List.not_mem_nil, or_false] at hx
      rcases hx with h1 | h1
      · simp [h1, routeWalk]
      · subst h1
        simp [GetParent] at hpar
    · simp only [ancestors, List.mem_cons] at hx
      rcases hx with h1 | h1
      · subst h1
        simp only [GetParent, Option.some.injEq] at hpar
        exact absurd hpar hp
      · simp only [routeWalk, hp, if_neg]
        exact ih hp x h1 hpar

/-- C1: the route computed by the child constructor satisfies the spec's
    recurrence (`route(N) = N` when the parent is root, otherwise
    `route(N) = route(parent(N))`, i.e. `specRoute`), the computed route is
    a direct child of the root, it is the unique ancestor of the new node
    with that property, and the concrete examples hold:
    for a chain root→B→D, `route(D) = B`; for a direct child C of root,
    `route(C) = C`. -/
theorem c1_route_recurrence (n : String) (above : TreeServer) :
    childRoute n above = specRoute (.Child n above) ∧
    GetParent (childRoute n above) = some TreeServer.Root ∧
    childRoute n above ∈ ancestors (.Child n above) ∧
    (∀ x ∈ ancestors (.Child n above),
      GetParent x = some TreeServer.Root → x = childRoute n above) ∧
    childRoute "D" (.Child "B" .Root) = .Child "B" .Root ∧
    childRoute "C" .Root = .Child "C" .Root := by
  refine ⟨?_, ?_, ?_, ?_, by decide, by decide⟩
  · by_cases h : above = TreeServer.Root
    · simp [childRoute, computeRoute, specRoute, h]
    · simp [childRoute, computeRoute, specRoute, h, routeWalk_eq_specRoute]
  · by_cases h : above = TreeServer.Root
    · simp [childRoute, computeRoute, h, GetParent]
    · simp only [childRoute, computeRoute, h, if_neg]
      exact routeWalk_parent above h
  · by_cases h : above = TreeServer.Root
    · simp [childRoute, computeRoute, h, ancestors]
    · simp only [childRoute, computeRoute, h, if_neg, ancestors]
      exact List.mem_cons_of_mem _ (routeWalk_mem_ancestors above h)
  · intro x hx hpar
    by_cases h : above = TreeServer.Root
    · subst h
      simp only [ancestors, List.mem_cons, List.not_mem_nil, or_false] at hx
      rcases hx with h1 | h1
      · simp [h1, childRoute, computeRoute]
      · subst h1
        simp [GetParent] at hpar
    · simp only [ancestors, List.mem_cons] at hx
      rcases hx with h1 | h1
      · subst h1
        simp only [GetParent, Option.some.injEq] at hpar
        exact absurd hpar h
      · simp only [childRoute, computeRoute, h, if_neg]
        exact routeWalk_unique above h x h1 hpar

/-! ## Burst-completion notice formatting (treeserver.cpp lines 133-137)

`FinishBurst` computes `bursttime = ts - StartBurst` and emits
`WriteToSnoMask(Parent == Utils->TreeRoot ? 'l' : 'L',
  "Received end of netburst from \2%s\2 (burst time: %lu %s)", ServerName,
  (bursttime > 10000 ? bursttime / 1000 : bursttime),
  (bursttime > 10000 ? "secs" : "msecs"))`.
-/

structure SnoNotice where
  snomask : Char
  text : String
deriving DecidableEq

/-- Numeric value printed by the notice: `bursttime > 10000 ? bursttime / 1000 : bursttime`
    (`%lu`, i.e. integer formatting; `/` is C integer division). -/
def burstDisplayValue (bursttime : Nat) : Nat :=
  if bursttime > 10000 then bursttime / 1000 else bursttime

/-- Unit string printed by the notice: `bursttime > 10000 ? "secs" : "msecs"`. -/
def burstUnit (bursttime : Nat) : String :=
  if bursttime > 10000 then "secs" else "msecs"

/-- Notice emitted by `FinishBurst`; `isDirectChild` is `Parent == Utils->TreeRoot`. -/
def finishBurstNotice (isDirectChild : Bool) (sname : String) (bursttime : Nat) : SnoNotice :=
  ⟨if isDirectChild then 'l' else 'L',
   "Received end of netburst from \x02" ++ sname ++ "\x02 (burst time: " ++
     toString (burstDisplayValue bursttime) ++ " " ++ burstUnit bursttime ++ ")"⟩

/-- Written from the claim's words, for comparison: a duration rendered as
    seconds with one decimal place (e.g. 12345 ms renders as "12.3"). -/
def claimSecsOneDecimal (bursttime : Nat) : String :=
  toString (bursttime / 1000) ++ "." ++ toString (bursttime % 1000 / 100)

/-! ## Burst lifecycle over the server tree (treeserver.cpp lines 117-138)

`Srv` models a `TreeServer` subtree by value: the fields of one node that
the burst lifecycle touches (`bursting`, `StartBurst`, `NextPing`,
`LastPingWasGood`) plus the `Children` vector. -/

inductive Srv where
  | mk (sname : String) (bursting : Bool) (StartBurst : Nat) (NextPing : Nat)
       (LastPingWasGood : Bool) (children : List Srv)

def Srv.sname : Srv → String
  | .mk n _ _ _ _ _ => n

def Srv.bursting : Srv → Bool
  | .mk _ b _ _ _ _ => b

def Srv.StartBurst : Srv → Nat
  | .mk _ _ sb _ _ _ => sb

def Srv.NextPing : Srv → Nat
  | .mk _ _ _ np _ _ => np

def Srv.LastPingWasGood : Srv → Bool
  | .mk _ _ _ _ lp _ => lp

def Srv.children : Srv → List Srv
  | .mk _ _ _ _ _ cs => cs

mutual
/-- Embeds `TreeServer::FinishBurstInternal`: `bursting = false;
    SetNextPingTime(now + PingFreq); SetPingFlag();` then recursion into
    every child.  `now` is `ServerInstance->Time()`, `freq` is `Utils->PingFreq`. -/
def finishBurstInternal (now freq : Nat) : Srv → Srv
  | .mk n _ sb _ _ cs => .mk n false sb (now + freq) true (finishBurstInternalList now freq cs)

def finishBurstInternalList (now freq : Nat) : List Srv → List Srv
  | [] => []
  | c :: cs => finishBurstInternal now freq c :: finishBurstInternalList now freq cs
end

mutual
/-- All nodes of a subtree (the node itself and every descendant). -/
def srvAll : Srv → List Srv
  | .mk n b sb np lp cs => .mk n b sb np lp cs :: srvAllList cs

def srvAllList : List Srv → List Srv
  | [] => []
  | c :: cs => srvAll c ++ srvAllList cs
end

mutual
/-- Skeleton of a subtree: the fields the burst lifecycle never changes
    (name, `StartBurst`, tree shape), with the mutable flags normalised. -/
def srvSkel : Srv → Srv
  | .mk n _ sb _ _ cs => .mk n false sb 0 false (srvSkelList cs)

def srvSkelList : List Srv → List Srv
  | [] => []
  | c :: cs => srvSkel c :: srvSkelList cs
end

/-- Side effects of one externally invoked `FinishBurst`:
    `XLines->ApplyLines()` call count, emitted snomask notices, and
    `AddServerEvent` topology-change events (by server name). -/
structure BurstEffects where
  applyLinesCalls : Nat
  notices : List SnoNotice
  serverEvents : List String
deriving DecidableEq

/-- Embeds `TreeServer::FinishBurst`: `FinishBurstInternal()` on the whole
    subtree, then `ApplyLines`, the snomask notice with
    `bursttime = ts - StartBurst`, and `AddServerEvent(..., ServerName)` —
    each exactly once, for this node only.  `ts` is the current
    millisecond timestamp; `isDirectChild` is `Parent == Utils->TreeRoot`. -/
def finishBurst (now freq ts : Nat) (isDirectChild : Bool) (s : Srv) : Srv × BurstEffects :=
  (finishBurstInternal now freq s,
   ⟨1, [finishBurstNotice isDirectChild s.sname (ts - s.StartBurst)], [s.sname]⟩)

mutual
theorem fbi_all_props (now freq : Nat) (s : Srv) :
    ∀ x ∈ srvAll (finishBurstInternal now freq s),
      x.bursting = false ∧ x.LastPingWasGood = true ∧ x.NextPing = now + freq := by
  cases s with
  | mk n b sb np lp cs =>
    intro x hx
    simp only [finishBurstInternal, srvAll, List.mem_cons] at hx
    rcases hx with h | h
    · subst h
      exact ⟨rfl, rfl, rfl⟩
    · exact fbi_all_props_list now freq cs x h

theorem fbi_all_props_list (now freq : Nat) (cs : List Srv) :
    ∀ x ∈ srvAllList (finishBurstInternalList now freq cs),
      x.bursting = false ∧ x.LastPingWasGood = true ∧ x.NextPing = now + freq := by
  cases cs with
  | nil =>
    intro x hx
    simp [finishBurstInternalList, srvAllList] at hx
  | cons c cs =>
    intro x hx
    simp only [finishBurstInternalList, srvAllList, List.mem_append] at hx
    rcases hx with h | h
    · exact fbi_all_props now freq c x h
    · exact fbi_all_props_list now freq cs x h
end

mutual
theorem fbi_skel (now freq : Nat) (s : Srv) :
    srvSkel (finishBurstInternal now freq s) = srvSkel s := by
  cases s with
  | mk n b sb np lp cs =>
    simp only [finishBurstInternal, srvSkel, Srv.mk.injEq, true_and]
    exact fbi_skel_list now freq cs

theorem fbi_skel_list (now freq : Nat) (cs : List Srv) :
    srvSkelList (finishBurstInternalList now freq cs) = srvSkelList cs := by
  cases cs with
  | nil => rfl
  | cons c cs =>
    simp only [finishBurstInternalList, srvSkelList, List.cons.injEq]
    exact ⟨fbi_skel now freq c, fbi_skel_list now freq cs⟩
end

/-- C2: `FinishBurst(B)` clears `bursting` on B and on every descendant
    unconditionally (whatever each node's prior flags were) and reschedules
    each node's keepalive (`NextPing = now + PingFreq`, answered flag set);
    it changes nothing else in the subtree (names, `StartBurst`, shape are
    preserved); and the side effects — `ApplyLines`, the operator notice,
    and the topology-change event — fire exactly once each, naming B only. -/
theorem c2_finish_burst_recursive (B : Srv) (now freq ts : Nat) (d : Bool) :
    (∀ x ∈ srvAll (finishBurst now freq ts d B).1,
      x.bursting = false ∧ x.LastPingWasGood = true ∧ x.NextPing = now + freq) ∧
    srvSkel (finishBurst now freq ts d B).1 = srvSkel B ∧
    (finishBurst now freq ts d B).2.applyLinesCalls = 1 ∧
    (finishBurst now freq ts d B).2.notices =
      [finishBurstNotice d B.sname (ts - B.StartBurst)] ∧
    (finishBurst now freq ts d B).2.serverEvents = [B.sname] :=
  ⟨fbi_all_props now freq B, fbi_skel now freq B, rfl, rfl, rfl⟩

/-- C2 witness: the burst-recursion scenario of the specification, a
    bursting node B with one bursting child D, evaluated concretely. -/
theorem c2_finish_burst_recursive_witness :
    (∀ x ∈ srvAll (finishBurst 100 60 5000 true
        (.mk "B" true 400 0 false [.mk "D" true 450 0 false []])).1,
      x.bursting = false ∧ x.LastPingWasGood = true ∧ x.NextPing = 100 + 60) ∧
    srvSkel (finishBurst 100 60 5000 true
        (.mk "B" true 400 0 false [.mk "D" true 450 0 false []])).1 =
      srvSkel (.mk "B" true 400 0 false [.mk "D" true 450 0 false []]) ∧
    (finishBurst 100 60 5000 true
        (.mk "B" true 400 0 false [.mk "D" true 450 0 false []])).2.applyLinesCalls = 1 ∧
    (finishBurst 100 60 5000 true
        (.mk "B" true 400 0 false [.mk "D" true 450 0 false []])).2.notices =
      [finishBurstNotice true
        (Srv.sname (.mk "B" true 400 0 false [.mk "D" true 450 0 false []]))
        (5000 - Srv.StartBurst (.mk "B" true 400 0 false [.mk "D" true 450 0 false []]))] ∧
    (finishBurst 100 60 5000 true
        (.mk "B" true 400 0 false [.mk "D" true 450 0 false []])).2.serverEvents =
      [Srv.sname (.mk "B" true 400 0 false [.mk "D" true 450 0 false []])] :=
  c2_finish_burst_recursive (.mk "B" true 400 0 false [.mk "D" true 450 0 false []]) 100 60 5000 true

/-! ## Per-node flag state (treeserver.cpp lines 47-56, 117-121, 196-230)

`PNode` isolates the fields of one `TreeServer` touched by the keepalive
scheduler and the burst flag, together with the mutable version string.
`PNodeOp` enumerates the subsystem operations that act on one existing
node's state; running a list of them models any call sequence. -/

structure PNode where
  bursting : Bool
  NextPing : Nat
  LastPingWasGood : Bool
  VersionString : String
deriving DecidableEq

/-- Embeds `TreeServer::SetNextPingTime`: `NextPing = t; LastPingWasGood = false;`. -/
def setNextPingTime (t : Nat) (s : PNode) : PNode :=
  { s with NextPing := t, LastPingWasGood := false }

/-- Embeds `TreeServer::SetPingFlag`: `LastPingWasGood = true;`. -/
def setPingFlag (s : PNode) : PNode :=
  { s with LastPingWasGood := true }

/-- Embeds `TreeServer::NextPingTime` (returns `NextPing`). -/
def nextPingTime (s : PNode) : Nat := s.NextPing

/-- Embeds `TreeServer::AnsweredLastPing` (returns `LastPingWasGood`). -/
def answeredLastPing (s : PNode) : Bool := s.LastPingWasGood

/-- Per-node state right after the child constructor: the initialiser list
    sets `bursting(true)`, then the body runs
    `SetNextPingTime(Time() + Utils->PingFreq); SetPingFlag();`. -/
def initChild (now freq : Nat) (v : String) : PNode :=
  setPingFlag (setNextPingTime (now + freq) ⟨true, 0, false, v⟩)

/-- Per-node state right after the root constructor: the initialiser list
    sets `bursting(false)`; the keepalive fields are never used for the
    root and are modelled at their default values. -/
def initRoot (v : String) : PNode := ⟨false, 0, false, v⟩

inductive PNodeOp where
  | opSetNextPingTime (t : Nat)
  | opSetPingFlag
  | opFinishBurstInternalSelf (now freq : Nat)
  | opSetVersion (v : String)
  | opReadNextPingTime
  | opReadAnsweredLastPing
deriving DecidableEq

/-- Effect of one subsystem operation on one node's state.
    `opFinishBurstInternalSelf` is what `FinishBurstInternal` does to each
    node it visits: `bursting = false; SetNextPingTime(now + PingFreq);
    SetPingFlag();`.  The two read operations model `NextPingTime` and
    `AnsweredLastPing`, which mutate nothing. -/
def applyPNodeOp (s : PNode) : PNodeOp → PNode
  | .opSetNextPingTime t => setNextPingTime t s
  | .opSetPingFlag => setPingFlag s
  | .opFinishBurstInternalSelf now freq =>
      setPingFlag (setNextPingTime (now + freq) { s with bursting := false })
  | .opSetVersion v => { s with VersionString := v }
  | .opReadNextPingTime => s
  | .opReadAnsweredLastPing => s

def runPNode (s : PNode) (ops : List PNodeOp) : PNode :=
  ops.foldl applyPNodeOp s

/-- Recognises the `SetNextPingTime` operation. -/
def isSetNextPingTimeOp : PNodeOp → Bool
  | .opSetNextPingTime _ => true
  | _ => false

/-- Recognises the `FinishBurstInternal` operation. -/
def isFinishBurstOp : PNodeOp → Bool
  | .opFinishBurstInternalSelf _ _ => true
  | _ => false

theorem answered_stays_true (s : PNode) (ops : List PNodeOp)
    (hops : ∀ o ∈ ops, isSetNextPingTimeOp o = false)
    (hs : s.LastPingWasGood = true) :
    (runPNode s ops).LastPingWasGood = true := by
  induction ops generalizing s with
  | nil => exact hs
  | cons o ops ih =>
    have ho := hops o (List.mem_cons_self o ops)
    have hrest : ∀ o' ∈ ops, isSetNextPingTimeOp o' = false :=
      fun o' h => hops o' (List.mem_cons_of_mem o h)
    have hstep : (applyPNodeOp s o).LastPingWasGood = true := by
      cases o with
      | opSetNextPingTime t => simp [isSetNextPingTimeOp] at ho
      | opSetPingFlag => rfl
      | opFinishBurstInternalSelf now freq => rfl
      | opSetVersion v => exact hs
      | opReadNextPingTime => exact hs
      | opReadAnsweredLastPing => exact hs
    exact ih (applyPNodeOp s o) hrest hstep

theorem bursting_unchanged (s : PNode) (ops : List PNodeOp)
    (hops : ∀ o ∈ ops, isFinishBurstOp o = false) :
    (runPNode s ops).bursting = s.bursting := by
  induction ops generalizing s with
  | nil => rfl
  | cons o ops ih =>
    have ho := hops o (List.mem_cons_self o ops)
    have hrest : ∀ o' ∈ ops, isFinishBurstOp o' = false :=
      fun o' h => hops o' (List.mem_cons_of_mem o h)
    have hstep : (applyPNodeOp s o).bursting = s.bursting := by
      cases o with
      | opSetNextPingTime t => rfl
      | opSetPingFlag => rfl
      | opFinishBurstInternalSelf now freq => simp [isFinishBurstOp] at ho
      | opSetVersion v => rfl
      | opReadNextPingTime => rfl
      | opReadAnsweredLastPing => rfl
    rw [runPNode, List.foldl_cons, ← runPNode, ih _ hrest, hstep]

theorem bursting_false_stays (s : PNode) (ops : List PNodeOp)
    (hs : s.bursting = false) :
    (runPNode s ops).bursting = false := by
  induction ops generalizing s with
  | nil => exact hs
  | cons o ops ih =>
    have hstep : (applyPNodeOp s o).bursting = false := by
      cases o with
      | opSetNextPingTime t => exact hs
      | opSetPingFlag => exact hs
      | opFinishBurstInternalSelf now freq => rfl
      | opSetVersion v => exact hs
      | opReadNextPingTime => exact hs
      | opReadAnsweredLastPing => exact hs
    exact ih (applyPNodeOp s o) hstep

/-- C6: `SetNextPingTime(t)` sets `NextPingTime()` to `t` and clears the
    answered flag; `SetPingFlag()` sets it; once set it stays set across
    any sequence of subsystem operations that contains no
    `SetNextPingTime`; and the two reads mutate no state. -/
theorem c6_keepalive (s : PNode) (t : Nat) (ops : List PNodeOp)
    (hops : ∀ o ∈ ops, isSetNextPingTimeOp o = false) :
    nextPingTime (applyPNodeOp s (.opSetNextPingTime t)) = t ∧
    answeredLastPing (applyPNodeOp s (.opSetNextPingTime t)) = false ∧
    answeredLastPing (applyPNodeOp s .opSetPingFlag) = true ∧
    (answeredLastPing s = true → answeredLastPing (runPNode s ops) = true) ∧
    applyPNodeOp s .opReadNextPingTime = s ∧
    applyPNodeOp s .opReadAnsweredLastPing = s := by
  refine ⟨rfl, rfl, rfl, ?_, rfl, rfl⟩
  exact fun hs => answered_stays_true s ops hops hs

/-- C6 witness: a concrete node and a concrete `SetNextPingTime`-free
    operation sequence (a ping answer and a recursive burst finish). -/
theorem c6_keepalive_witness :
    nextPingTime (applyPNodeOp ⟨true, 5, true, "v1"⟩ (.opSetNextPingTime 42)) = 42 ∧
    answeredLastPing (applyPNodeOp ⟨true, 5, true, "v1"⟩ (.opSetNextPingTime 42)) = false ∧
    answeredLastPing (applyPNodeOp ⟨true, 5, true, "v1"⟩ .opSetPingFlag) = true ∧
    (answeredLastPing ⟨true, 5, true, "v1"⟩ = true →
      answeredLastPing (runPNode ⟨true, 5, true, "v1"⟩
        [.opSetPingFlag, .opFinishBurstInternalSelf 7 8, .opSetVersion "v2"]) = true) ∧
    applyPNodeOp ⟨true, 5, true, "v1"⟩ .opReadNextPingTime = ⟨true, 5, true, "v1"⟩ ∧
    applyPNodeOp ⟨true, 5, true, "v1"⟩ .opReadAnsweredLastPing = ⟨true, 5, true, "v1"⟩ :=
  c6_keepalive ⟨true, 5, true, "v1"⟩ 42
    [.opSetPingFlag, .opFinishBurstInternalSelf 7 8, .opSetVersion "v2"] (by decide)

/-- C7: `bursting` is `true` from child construction (`false` from root
    construction); it remains `true` across any operation sequence in which
    no `FinishBurstInternal` reaches the node; and once `false` it stays
    `false` across every operation sequence of the subsystem. -/
theorem c7_bursting_lifecycle (now freq : Nat) (v w : String) (s : PNode)
    (ops ops2 : List PNodeOp)
    (hops : ∀ o ∈ ops, isFinishBurstOp o = false) :
    (initChild now freq v).bursting = true ∧
    (initRoot w).bursting = false ∧
    (runPNode (initChild now freq v) ops).bursting = true ∧
    (s.bursting = false → (runPNode s ops2).bursting = false) := by
  refine ⟨rfl, rfl, ?_, fun hs => bursting_false_stays s ops2 hs⟩
  rw [bursting_unchanged _ ops hops]
  rfl

/-- C7 witness: concrete sequences with and without a burst finish. -/
theorem c7_bursting_lifecycle_witness :
    (initChild 100 60 "v1").bursting = true ∧
    (initRoot "v0").bursting = false ∧
    (runPNode (initChild 100 60 "v1")
      [.opSetNextPingTime 400, .opSetPingFlag, .opSetVersion "v2"]).bursting = true ∧
    (PNode.bursting ⟨false, 9, true, "v3"⟩ = false →
      (runPNode ⟨false, 9, true, "v3"⟩
        [.opFinishBurstInternalSelf 1 2, .opSetPingFlag,
         .opSetNextPingTime 3]).bursting = false) :=
  c7_bursting_lifecycle 100 60 "v1" "v0" ⟨false, 9, true, "v3"⟩
    [.opSetNextPingTime 400, .opSetPingFlag, .opSetVersion "v2"]
    [.opFinishBurstInternalSelf 1 2, .opSetPingFlag, .opSetNextPingTime 3] (by decide)

/-- C10: immediately after the child constructor the node's answered flag
    is set (`SetPingFlag` runs right after `SetNextPingTime`), and after
    `FinishBurstInternal` every node it touched has the answered flag set,
    so neither a fresh nor a newly stable node is observed unanswered. -/
theorem c10_answered_after_create_and_finish (now freq : Nat) (v : String) (B : Srv) :
    answeredLastPing (initChild now freq v) = true ∧
    (∀ x ∈ srvAll (finishBurstInternal now freq B), x.LastPingWasGood = true) := by
  refine ⟨rfl, fun x hx => ?_⟩
  exact (fbi_all_props now freq B x hx).2.1

/-- C10 witness: the flag holds concretely for a fresh child and for every
    node of a finished two-node subtree. -/
theorem c10_answered_after_create_and_finish_witness :
    answeredLastPing (initChild 100 60 "v1") = true ∧
    (∀ x ∈ srvAll (finishBurstInternal 100 60
        (.mk "B" true 400 0 false [.mk "D" true 450 7 false []])),
      x.LastPingWasGood = true) :=
  c10_answered_after_create_and_finish 100 60 "v1"
    (.mk "B" true 400 0 false [.mk "D" true 450 7 false []])

/-! ## QuitUsers (treeserver.cpp lines 140-166)

`QuitUsers` scans the global client list for users whose `server` field
equals this node's name, collects them in `time_to_die`, force-quits the
ones that are not locally attached (`!IS_LOCAL(a)`), and returns
`time_to_die.size()`.  A user is a name-affiliation record plus the
locally-attached predicate; a `QuitRecord` captures one
`ServerInstance->Users->QuitUser(...)` call (shown reason, operator
reason, and whether `quietquit` was set beforehand). -/

structure NetUser where
  uid : String
  server : String
  isLocalConn : Bool
  quietquit : Bool
deriving DecidableEq

structure QuitRecord where
  quid : String
  shownReason : String
  operReason : String
  markedQuiet : Bool
deriving DecidableEq

/-- Embeds `TreeServer::QuitUsers`.  First pass: `time_to_die` collects every
    user with `server == ServerName`.  Second pass: every non-local user in
    it is quit — with `quietquit` set first when `Utils->quiet_bursts`, and
    with reason `"*.net *.split"` (operator reason = the real reason) when
    `Config->HideSplits`, else the literal reason (empty operator reason).
    Returns the quit-call list and `time_to_die.size()`. -/
def quitUsers (ServerName reason : String) (quietBursts hideSplits : Bool)
    (clientlist : List NetUser) : List QuitRecord × Nat :=
  let ttd := clientlist.filter (fun u => u.server == ServerName)
  (ttd.filterMap (fun a =>
      if a.isLocalConn then none
      else some ⟨a.uid, if hideSplits then "*.net *.split" else reason,
                 if hideSplits then reason else "", quietBursts⟩),
   ttd.length)

/-- Client list of the specification's example: five users affiliated with
    "leaf.example", two of them locally attached, plus one unrelated user. -/
def exampleClients : List NetUser :=
  [⟨"u1", "leaf.example", false, false⟩,
   ⟨"u2", "leaf.example", false, false⟩,
   ⟨"u3", "leaf.example", false, false⟩,
   ⟨"u4", "leaf.example", true, false⟩,
   ⟨"u5", "leaf.example", true, false⟩,
   ⟨"u6", "other.example", false, false⟩]

/-- C3 counterexample: on the specification's own example (5 affiliated
    users, 2 locally attached), the code disconnects 3 users but returns
    `time_to_die.size() = 5`, not 3: the return value counts every
    affiliated user, locally attached ones included. -/
theorem c3_quit_users_counterexample :
    (quitUsers "leaf.example" "reason" false false exampleClients).1.length = 3 ∧
    (quitUsers "leaf.example" "reason" false false exampleClients).2 = 5 ∧
    ¬ (quitUsers "leaf.example" "reason" false false exampleClients).2 = 3 := by
  refine ⟨by decide, by decide, by decide⟩

/-- C3 amended: `QuitUsers` disconnects exactly the affiliated users that
    are not locally attached (in client-list order) and never force-quits a
    locally attached session, but it returns the count of all users whose
    server name matches, locally attached ones included; on the example
    with 5 affiliated users of which 2 are local, it disconnects 3 and
    returns 5. -/
theorem c3_quit_users_amended (ServerName reason : String) (q h : Bool)
    (cl : List NetUser) :
    (quitUsers ServerName reason q h cl).1 =
      (cl.filter (fun u => u.server == ServerName && !u.isLocalConn)).map
        (fun a => ⟨a.uid, if h then "*.net *.split" else reason,
                   if h then reason else "", q⟩) ∧
    (quitUsers ServerName reason q h cl).2 =
      (cl.filter (fun u => u.server == ServerName)).length := by
  refine ⟨?_, rfl⟩
  induction cl with
  | nil => rfl
  | cons u cl ih =>
    simp only [quitUsers] at ih ⊢
    by_cases hs : u.server == ServerName
    · by_cases hl : u.isLocalConn
      · simp [List.filter_cons, hs, hl, ih]
      · simp [List.filter_cons, hs, hl, ih]
    · simp [List.filter_cons, hs, ih]

/-- C3 amended witness: the example instance, evaluated concretely. -/
theorem c3_quit_users_amended_witness :
    (quitUsers "leaf.example" "reason" false false exampleClients).1 =
      (exampleClients.filter
        (fun u => u.server == "leaf.example" && !u.isLocalConn)).map
        (fun a => ⟨a.uid, if false then "*.net *.split" else "reason",
                   if false then "reason" else "", false⟩) ∧
    (quitUsers "leaf.example" "reason" false false exampleClients).2 =
      (exampleClients.filter (fun u => u.server == "leaf.example")).length :=
  c3_quit_users_amended "leaf.example" "reason" false false exampleClients

/-! ## Tidy and node destruction (treeserver.cpp lines 248-282)

`TNode` models a `TreeServer` subtree for teardown: name, SID, children.
`NetMaps` is the global state teardown touches: the key sets of
`Utils->serverlist` and `Utils->sidlist`, plus the root's child-name list
(which `Tidy` on a non-root node never visits).  `tidy` embeds
`TreeServer::Tidy`: for each child `s`, `s->Tidy()` first, then `s->cull()`,
`Children.erase(a)`, and `delete s` — the destructor erases `sid` from
`sidlist` and `ServerName` from `serverlist`.  The third component logs
every destroyed node (its value at destruction time) in destruction
order. -/

inductive TNode where
  | mk (tname : String) (tsid : String) (children : List TNode)

def TNode.tname : TNode → String
  | .mk n _ _ => n

def TNode.tsid : TNode → String
  | .mk _ s _ => s

def TNode.children : TNode → List TNode
  | .mk _ _ cs => cs

structure NetMaps where
  serverlist : List String
  sidlist : List String
  rootChildren : List String
deriving DecidableEq

/-- Erasure of one key from a map's key set (`std::map::erase(key)`;
    map keys are unique, so removing every occurrence is the same). -/
def eraseKey (k : String) (l : List String) : List String :=
  l.filter (fun x => x != k)

/-- Sequential erasure of a list of keys. -/
def eraseAllKeys (l : List String) (ks : List String) : List String :=
  ks.foldl (fun acc k => eraseKey k acc) l

mutual
/-- Embeds `TreeServer::Tidy` plus the destructor effects of the children
    it deletes.  The node itself is returned with an empty child vector;
    the node itself is NOT destroyed and its map entries are NOT erased. -/
def tidy (n : TNode) (g : NetMaps) (log : List TNode) : TNode × NetMaps × List TNode :=
  match n with
  | .mk nm sd cs =>
      ((.mk nm sd []), (tidyChildren cs g log).1, (tidyChildren cs g log).2)

def tidyChildren : List TNode → NetMaps → List TNode → NetMaps × List TNode
  | [], g, log => (g, log)
  | c :: cs, g, log =>
      tidyChildren cs
        ⟨eraseKey (tidy c g log).1.tname (tidy c g log).2.1.serverlist,
         eraseKey (tidy c g log).1.tsid (tidy c g log).2.1.sidlist,
         (tidy c g log).2.1.rootChildren⟩
        ((tidy c g log).2.2 ++ [(tidy c g log).1])
end

mutual
/-- Destruction order of `Tidy`: the strict descendants of the node,
    each logged with the (already emptied) child vector it has when its
    destructor runs, children always before their parent. -/
def destrOrder : TNode → List TNode
  | .mk _ _ cs => destrOrderList cs

def destrOrderList : List TNode → List TNode
  | [] => []
  | c :: cs => destrOrder c ++ (TNode.mk c.tname c.tsid [] :: destrOrderList cs)
end

theorem mem_of_mem_eraseAllKeys {x : String} {l ks : List String}
    (h : x ∈ eraseAllKeys l ks) : x ∈ l := by
  induction ks generalizing l with
  | nil => exact h
  | cons k ks ih =>
    have h2 : x ∈ eraseKey k l := ih h
    exact (List.mem_filter.mp h2).1

theorem not_mem_eraseAllKeys {x : String} {l ks : List String} (h : x ∈ ks) :
    x ∉ eraseAllKeys l ks := by
  induction ks generalizing l with
  | nil => cases h
  | cons k ks ih =>
    rcases List.mem_cons.mp h with rfl | h2
    · intro hmem
      have hx : x ∈ eraseKey x l := mem_of_mem_eraseAllKeys hmem
      have hx2 := (List.mem_filter.mp hx).2
      simp at hx2
    · exact fun hmem => ih h2 hmem

theorem mem_eraseAllKeys_iff {x : String} {l ks : List String} (h : x ∉ ks) :
    x ∈ eraseAllKeys l ks ↔ x ∈ l := by
  induction ks generalizing l with
  | nil => exact Iff.rfl
  | cons k ks ih =>
    have hk : x ≠ k := fun e => h (e ▸ List.mem_cons_self k ks)
    have htail : x ∉ ks := fun e => h (List.mem_cons_of_mem k e)
    have step : x ∈ eraseKey k l ↔ x ∈ l := by
      simp [eraseKey, List.mem_filter, hk]
    exact (ih htail).trans step

theorem eraseAllKeys_append (l ks1 ks2 : List String) :
    eraseAllKeys l (ks1 ++ ks2) = eraseAllKeys (eraseAllKeys l ks1) ks2 := by
  simp [eraseAllKeys, List.foldl_append]

mutual
theorem tidy_eq (n : TNode) (g : NetMaps) (log : List TNode) :
    tidy n g log =
      (TNode.mk n.tname n.tsid [],
       ⟨eraseAllKeys g.serverlist ((destrOrder n).map TNode.tname),
        eraseAllKeys g.sidlist ((destrOrder n).map TNode.tsid),
        g.rootChildren⟩,
       log ++ destrOrder n) := by
  cases n with
  | mk nm sd cs =>
    simp only [tidy, destrOrder, TNode.tname, TNode.tsid]
    rw [tidyChildren_eq cs g log]

theorem tidyChildren_eq (cs : List TNode) (g : NetMaps) (log : List TNode) :
    tidyChildren cs g log =
      (⟨eraseAllKeys g.serverlist ((destrOrderList cs).map TNode.tname),
        eraseAllKeys g.sidlist ((destrOrderList cs).map TNode.tsid),
        g.rootChildren⟩,
       log ++ destrOrderList cs) := by
  cases cs with
  | nil =>
    simp [tidyChildren, destrOrderList, eraseAllKeys]
  | cons c cs =>
    simp only [tidyChildren]
    rw [tidy_eq c g log]
    rw [tidyChildren_eq cs _ _]
    simp [TNode.tname, TNode.tsid, destrOrderList, List.map_append,
      eraseAllKeys_append, eraseAllKeys, List.foldl_cons, List.append_assoc]
end

mutual
theorem destrOrder_children_empty (n : TNode) :
    ∀ x ∈ destrOrder n, x.children = [] := by
  cases n with
  | mk nm sd cs =>
    simp only [destrOrder]
    exact destrOrderList_children_empty cs

theorem destrOrderList_children_empty (cs : List TNode) :
    ∀ x ∈ destrOrderList cs, x.children = [] := by
  cases cs with
  | nil => intro x hx; cases hx
  | cons c cs =>
    intro x hx
    simp only [destrOrderList, List.mem_append, List.mem_cons] at hx
    rcases hx with h | h | h
    · exact destrOrder_children_empty c x h
    · subst h; rfl
    · exact destrOrderList_children_empty cs x h
end

/-- Subtree of the specification's Tidy scenario: B with descendants D, E, F. -/
def exampleB : TNode :=
  .mk "B" "2B" [.mk "D" "3D" [], .mk "E" "4E" [], .mk "F" "5F" []]

/-- Topology Index and root child set before `Tidy(B)` in the scenario. -/
def exampleMaps : NetMaps :=
  ⟨["root", "B", "D", "E", "F"], ["0AA", "2B", "3D", "4E", "5F"], ["B"]⟩

/-- C4 counterexample: in the specification's scenario (B with descendants
    D, E, F), after `Tidy(B)` the descendants are indeed gone from both
    maps, but B itself is still reachable by name and SID and still sits
    in root's child set — `Tidy` never destroys the node it is invoked on
    and the destructor of B never runs. -/
theorem c4_tidy_counterexample :
    "B" ∈ (tidy exampleB exampleMaps []).2.1.serverlist ∧
    "2B" ∈ (tidy exampleB exampleMaps []).2.1.sidlist ∧
    "B" ∈ (tidy exampleB exampleMaps []).2.1.rootChildren ∧
    ¬ "D" ∈ (tidy exampleB exampleMaps []).2.1.serverlist ∧
    ¬ "E" ∈ (tidy exampleB exampleMaps []).2.1.serverlist ∧
    ¬ "F" ∈ (tidy exampleB exampleMaps []).2.1.serverlist ∧
    ¬ "3D" ∈ (tidy exampleB exampleMaps []).2.1.sidlist ∧
    ¬ "4E" ∈ (tidy exampleB exampleMaps []).2.1.sidlist ∧
    ¬ "5F" ∈ (tidy exampleB exampleMaps []).2.1.sidlist := by
  decide

/-- C4 amended: after `Tidy(B)` every strict descendant of B is removed
    from the Topology Index by name and by SID (D, E, F in the scenario),
    no other index entry changes, B's own child set is empty, destruction
    is post-order (every destroyed node has an already-empty child set when
    its destructor runs, and the destruction log is exactly the strict
    descendants), and B itself remains — still indexed and still in root's
    child set; removing B is a separate step for the caller. -/
theorem c4_tidy_amended (B : TNode) (g : NetMaps) :
    (tidy B g []).1 = TNode.mk B.tname B.tsid [] ∧
    (tidy B g []).2.2 = destrOrder B ∧
    (∀ x ∈ (tidy B g []).2.2, x.children = []) ∧
    (∀ k ∈ (destrOrder B).map TNode.tname, k ∉ (tidy B g []).2.1.serverlist) ∧
    (∀ k ∈ (destrOrder B).map TNode.tsid, k ∉ (tidy B g []).2.1.sidlist) ∧
    (∀ k, k ∉ (destrOrder B).map TNode.tname →
      (k ∈ (tidy B g []).2.1.serverlist ↔ k ∈ g.serverlist)) ∧
    (∀ k, k ∉ (destrOrder B).map TNode.tsid →
      (k ∈ (tidy B g []).2.1.sidlist ↔ k ∈ g.sidlist)) ∧
    (tidy B g []).2.1.rootChildren = g.rootChildren := by
  rw [tidy_eq]
  refine ⟨rfl, by simp, ?_, ?_, ?_, ?_, ?_, rfl⟩
  · intro x hx
    simp only [List.nil_append] at hx
    exact destrOrder_children_empty B x hx
  · exact fun k hk => not_mem_eraseAllKeys hk
  · exact fun k hk => not_mem_eraseAllKeys hk
  · exact fun k hk => mem_eraseAllKeys_iff hk
  · exact fun k hk => mem_eraseAllKeys_iff hk

/-- C4 amended witness: the B/D/E/F scenario, evaluated concretely. -/
theorem c4_tidy_amended_witness :
    (tidy exampleB exampleMaps []).1 =
      TNode.mk exampleB.tname exampleB.tsid [] ∧
    (tidy exampleB exampleMaps []).2.2 = destrOrder exampleB ∧
    (∀ x ∈ (tidy exampleB exampleMaps []).2.2, x.children = []) ∧
    (∀ k ∈ (destrOrder exampleB).map TNode.tname,
      k ∉ (tidy exampleB exampleMaps []).2.1.serverlist) ∧
    (∀ k ∈ (destrOrder exampleB).map TNode.tsid,
      k ∉ (tidy exampleB exampleMaps []).2.1.sidlist) ∧
    (∀ k, k ∉ (destrOrder exampleB).map TNode.tname →
      (k ∈ (tidy exampleB exampleMaps []).2.1.serverlist ↔
        k ∈ exampleMaps.serverlist)) ∧
    (∀ k, k ∉ (destrOrder exampleB).map TNode.tsid →
      (k ∈ (tidy exampleB exampleMaps []).2.1.sidlist ↔
        k ∈ exampleMaps.sidlist)) ∧
    (tidy exampleB exampleMaps []).2.1.rootChildren = exampleMaps.rootChildren :=
  c4_tidy_amended exampleB exampleMaps

/-- C9: `Tidy(N)` destroys only the strict descendants of N (the
    destruction log names exactly them); afterwards N's child set is empty
    but N keeps its identity, is still registered in both Topology Index
    maps, and still appears in its parent's (root's) child set.  The
    hypotheses are the global-uniqueness invariant: N's own name and SID
    differ from every destroyed descendant's, and N was indexed and was a
    child of root beforehand. -/
theorem c9_tidy_scope (N : TNode) (g : NetMaps)
    (h1 : N.tname ∈ g.serverlist) (h2 : N.tsid ∈ g.sidlist)
    (h3 : N.tname ∉ (destrOrder N).map TNode.tname)
    (h4 : N.tsid ∉ (destrOrder N).map TNode.tsid)
    (h5 : N.tname ∈ g.rootChildren) :
    (tidy N g []).1 = TNode.mk N.tname N.tsid [] ∧
    ((tidy N g []).2.2).map TNode.tname = (destrOrder N).map TNode.tname ∧
    N.tname ∈ (tidy N g []).2.1.serverlist ∧
    N.tsid ∈ (tidy N g []).2.1.sidlist ∧
    N.tname ∈ (tidy N g []).2.1.rootChildren := by
  rw [tidy_eq]
  refine ⟨rfl, by simp, ?_, ?_, h5⟩
  · exact (mem_eraseAllKeys_iff h3).mpr h1
  · exact (mem_eraseAllKeys_iff h4).mpr h2

/-- C9 witness: a chain root→B→D with concrete index maps. -/
theorem c9_tidy_scope_witness :
    TNode.tname (.mk "B" "2B" [.mk "D" "3D" []]) ∈ ["root", "B", "D"] ∧
    ((tidy (.mk "B" "2B" [.mk "D" "3D" []])
        ⟨["root", "B", "D"], ["0AA", "2B", "3D"], ["B"]⟩ []).1 =
      TNode.mk (TNode.tname (.mk "B" "2B" [.mk "D" "3D" []]))
        (TNode.tsid (.mk "B" "2B" [.mk "D" "3D" []])) [] ∧
    ((tidy (.mk "B" "2B" [.mk "D" "3D" []])
        ⟨["root", "B", "D"], ["0AA", "2B", "3D"], ["B"]⟩ []).2.2).map TNode.tname =
      (destrOrder (.mk "B" "2B" [.mk "D" "3D" []])).map TNode.tname ∧
    TNode.tname (.mk "B" "2B" [.mk "D" "3D" []]) ∈
      (tidy (.mk "B" "2B" [.mk "D" "3D" []])
        ⟨["root", "B", "D"], ["0AA", "2B", "3D"], ["B"]⟩ []).2.1.serverlist ∧
    TNode.tsid (.mk "B" "2B" [.mk "D" "3D" []]) ∈
      (tidy (.mk "B" "2B" [.mk "D" "3D" []])
        ⟨["root", "B", "D"], ["0AA", "2B", "3D"], ["B"]⟩ []).2.1.sidlist ∧
    TNode.tname (.mk "B" "2B" [.mk "D" "3D" []]) ∈
      (tidy (.mk "B" "2B" [.mk "D" "3D" []])
        ⟨["root", "B", "D"], ["0AA", "2B", "3D"], ["B"]⟩ []).2.1.rootChildren) :=
  ⟨by decide,
   c9_tidy_scope (.mk "B" "2B" [.mk "D" "3D" []])
     ⟨["root", "B", "D"], ["0AA", "2B", "3D"], ["B"]⟩
     (by decide) (by decide) (by decide) (by decide) (by decide)⟩

/-! ## Topology Index bookkeeping (treeserver.cpp lines 35-41, 47-110, 172-176, 274-282)

Both constructors end by calling `AddHashEntry()`, which upserts the node
into `Utils->serverlist` (by name) and `Utils->sidlist` (by SID); the
destructor erases both entries; no other function of the subsystem touches
either map.  `IxOp` is the operation alphabet at that granularity:
`opCreate` is a constructor run, `opDestroy` a destructor run, `opTouch`
any other subsystem operation (which leaves both maps alone). -/

structure SrvId where
  sname : String
  ssid : String
deriving DecidableEq

structure IxState where
  live : List SrvId
  serverlist : List (String × SrvId)
  sidlist : List (String × SrvId)
deriving DecidableEq

/-- Upsert into an exact-match map (`Utils->serverlist[ServerName] = this`). -/
def mapUpsert (k : String) (v : SrvId) (m : List (String × SrvId)) :
    List (String × SrvId) :=
  (k, v) :: m.filter (fun p => p.1 != k)

/-- Erasure from an exact-match map (`Utils->serverlist.erase(ServerName)`). -/
def mapErase (k : String) (m : List (String × SrvId)) : List (String × SrvId) :=
  m.filter (fun p => p.1 != k)

inductive IxOp where
  | opCreate (n s : String)
  | opDestroy (n s : String)
  | opTouch
deriving DecidableEq

def applyIx (st : IxState) : IxOp → IxState
  | .opCreate n s =>
      { live := ⟨n, s⟩ :: st.live,
        serverlist := mapUpsert n ⟨n, s⟩ st.serverlist,
        sidlist := mapUpsert s ⟨n, s⟩ st.sidlist }
  | .opDestroy n s =>
      { live := st.live.filter (fun x => x != ⟨n, s⟩),
        serverlist := mapErase n st.serverlist,
        sidlist := mapErase s st.sidlist }
  | .opTouch => st

def runIx (st : IxState) (ops : List IxOp) : IxState :=
  ops.foldl applyIx st

/-- Caller precondition of §7 of the spec: creation only with a fresh name
    and SID (duplicate registration is a protocol-layer error handled
    before this core), destruction only of a live node. -/
def validIxOp (st : IxState) : IxOp → Bool
  | .opCreate n s => !(st.live.any (fun x => x.sname == n || x.ssid == s))
  | .opDestroy n s => st.live.contains ⟨n, s⟩
  | .opTouch => true

def validIxTrace : IxState → List IxOp → Bool
  | _, [] => true
  | st, o :: ops => validIxOp st o && validIxTrace (applyIx st o) ops

/-- Exactness invariant: live names and SIDs are pairwise distinct and each
    map holds exactly one entry per live node, keyed by its name / SID. -/
def goodIx (st : IxState) : Prop :=
  (st.live.map SrvId.sname).Nodup ∧
  (st.live.map SrvId.ssid).Nodup ∧
  st.serverlist = st.live.map (fun x => (x.sname, x)) ∧
  st.sidlist = st.live.map (fun x => (x.ssid, x))

theorem goodIx_step (st : IxState) (o : IxOp) (hg : goodIx st)
    (hv : validIxOp st o = true) : goodIx (applyIx st o) := by
  obtain ⟨hn, hs, hsv, hsd⟩ := hg
  cases o with
  | opCreate n s =>
    simp only [validIxOp, Bool.not_eq_true', List.any_eq_false] at hv
    have hvn : ∀ x ∈ st.live, x.sname ≠ n := fun x hx he => hv x hx (by simp [he])
    have hvs : ∀ x ∈ st.live, x.ssid ≠ s := fun x hx he => hv x hx (by simp [he])
    refine ⟨?_, ?_, ?_, ?_⟩
    · simp only [applyIx, List.map_cons, List.nodup_cons]
      exact ⟨fun hmem => by
        obtain ⟨x, hx, he⟩ := List.mem_map.mp hmem
        exact hvn x hx he, hn⟩
    · simp only [applyIx, List.map_cons, List.nodup_cons]
      exact ⟨fun hmem => by
        obtain ⟨x, hx, he⟩ := List.mem_map.mp hmem
        exact hvs x hx he, hs⟩
    · simp only [applyIx, mapUpsert, hsv, List.filter_map, List.map_cons]
      have heq : List.filter ((fun p : String × SrvId => p.1 != n) ∘
          (fun x => (x.sname, x))) st.live = st.live :=
        List.filter_eq_self.mpr (fun a ha => by
          simp only [Function.comp_apply, bne_iff_ne, ne_eq]
          exact hvn a ha)
      rw [heq]
    · simp only [applyIx, mapUpsert, hsd, List.filter_map, List.map_cons]
      have heq : List.filter ((fun p : String × SrvId => p.1 != s) ∘
          (fun x => (x.ssid, x))) st.live = st.live :=
        List.filter_eq_self.mpr (fun a ha => by
          simp only [Function.comp_apply, bne_iff_ne, ne_eq]
          exact hvs a ha)
      rw [heq]
  | opDestroy n s =>
    simp only [validIxOp, List.contains_iff_exists_mem_beq] at hv
    obtain ⟨y, hy, hyeq⟩ := hv
    have hymem : SrvId.mk n s ∈ st.live := by
      have he : y = SrvId.mk n s := (eq_of_beq hyeq).symm
      exact he ▸ hy
    have hkey : ∀ x ∈ st.live, (x != SrvId.mk n s) = (x.sname != n) := by
      intro x hx
      by_cases hxe : x = SrvId.mk n s
      · subst hxe
        have l1 : (SrvId.mk n s != SrvId.mk n s) = false := by simp
        have l2 : (SrvId.sname (SrvId.mk n s) != n) = false := by simp
        rw [l1, l2]
      · have hxn : x.sname ≠ n := fun he =>
          hxe (List.inj_on_of_nodup_map hn hx hymem he)
        have l1 : (x != SrvId.mk n s) = true := by simp [hxe]
        have l2 : (x.sname != n) = true := by simp [hxn]
        rw [l1, l2]
    have hkey2 : ∀ x ∈ st.live, (x != SrvId.mk n s) = (x.ssid != s) := by
      intro x hx
      by_cases hxe : x = SrvId.mk n s
      · subst hxe
        have l1 : (SrvId.mk n s != SrvId.mk n s) = false := by simp
        have l2 : (SrvId.ssid (SrvId.mk n s) != s) = false := by simp
        rw [l1, l2]
      · have hxn : x.ssid ≠ s := fun he =>
          hxe (List.inj_on_of_nodup_map hs hx hymem he)
        have l1 : (x != SrvId.mk n s) = true := by simp [hxe]
        have l2 : (x.ssid != s) = true := by simp [hxn]
        rw [l1, l2]
    refine ⟨?_, ?_, ?_, ?_⟩
    · simp only [applyIx]
      exact ((List.filter_sublist st.live).map SrvId.sname).nodup hn
    · simp only [applyIx]
      exact ((List.filter_sublist st.live).map SrvId.ssid).nodup hs
    · simp only [applyIx, mapErase, hsv, List.filter_map, Function.comp_def]
      exact congrArg (List.map _) (List.filter_congr hkey).symm
    · simp only [applyIx, mapErase, hsd, List.filter_map, Function.comp_def]
      exact congrArg (List.map _) (List.filter_congr hkey2).symm
  | opTouch => exact ⟨hn, hs, hsv, hsd⟩

theorem goodIx_run (st : IxState) (ops : List IxOp) (hg : goodIx st)
    (hv : validIxTrace st ops = true) : goodIx (runIx st ops) := by
  induction ops generalizing st with
  | nil => exact hg
  | cons o ops ih =>
    simp only [validIxTrace, Bool.and_eq_true] at hv
    exact ih (applyIx st o) (goodIx_step st o hg hv.1) hv.2

/-- Exact-match lookup in one of the index maps
    (`Utils->serverlist.find(name)` / `Utils->sidlist.find(sid)`). -/
def mapFind (k : String) (m : List (String × SrvId)) : Option SrvId :=
  match m.find? (fun p => p.1 == k) with
  | some p => some p.2
  | none => none

theorem find_map_key (f : SrvId → String) (live : List SrvId)
    (hn : (live.map f).Nodup) (x : SrvId) (hx : x ∈ live) :
    (live.map fun y => (f y, y)).find? (fun p => p.1 == f x) = some (f x, x) := by
  induction live with
  | nil => cases hx
  | cons y ys ih =>
    simp only [List.map_cons, List.nodup_cons] at hn
    rcases List.mem_cons.mp hx with rfl | hxs
    · simp
    · have hne : f y ≠ f x := fun he => hn.1 (he ▸ List.mem_map_of_mem f hxs)
      rw [List.map_cons, List.find?_cons_of_neg _ (by simpa using hne)]
      exact ih hn.2 hxs

theorem mapFind_goodIx_name (st : IxState) (hg : goodIx st) (x : SrvId)
    (hx : x ∈ st.live) : mapFind x.sname st.serverlist = some x := by
  obtain ⟨hn, _, hsv, _⟩ := hg
  rw [mapFind, hsv, find_map_key SrvId.sname st.live hn x hx]

theorem mapFind_goodIx_sid (st : IxState) (hg : goodIx st) (x : SrvId)
    (hx : x ∈ st.live) : mapFind x.ssid st.sidlist = some x := by
  obtain ⟨_, hs, _, hsd⟩ := hg
  rw [mapFind, hsd, find_map_key SrvId.ssid st.live hs x hx]

/-- C8: starting from a state satisfying the exactness invariant (e.g. the
    empty network) and running any operation sequence that respects the
    caller precondition (fresh name and SID on creation, live node on
    destruction), the Topology Index maps contain exactly the live node
    set: names and SIDs stay pairwise distinct, each map is precisely the
    live list keyed by name resp. SID, every live node is found under its
    name and its SID, and the non-constructor/destructor operations change
    neither map. -/
theorem c8_index_exactness (st : IxState) (ops : List IxOp)
    (hg : goodIx st) (hv : validIxTrace st ops = true) :
    ((runIx st ops).live.map SrvId.sname).Nodup ∧
    ((runIx st ops).live.map SrvId.ssid).Nodup ∧
    (runIx st ops).serverlist = (runIx st ops).live.map (fun x => (x.sname, x)) ∧
    (runIx st ops).sidlist = (runIx st ops).live.map (fun x => (x.ssid, x)) ∧
    (∀ x ∈ (runIx st ops).live,
      mapFind x.sname (runIx st ops).serverlist = some x ∧
      mapFind x.ssid (runIx st ops).sidlist = some x) ∧
    applyIx (runIx st ops) .opTouch = runIx st ops := by
  have hgr := goodIx_run st ops hg hv
  obtain ⟨hn, hs, hsv, hsd⟩ := hgr
  exact ⟨hn, hs, hsv, hsd,
    fun x hx => ⟨mapFind_goodIx_name _ ⟨hn, hs, hsv, hsd⟩ x hx,
                 mapFind_goodIx_sid _ ⟨hn, hs, hsv, hsd⟩ x hx⟩,
    rfl⟩

/-- C8 witness: from the empty network, create two servers and destroy the
    first — a concrete valid trace, evaluated concretely. -/
theorem c8_index_exactness_witness :
    ((runIx ⟨[], [], []⟩
        [.opCreate "irc.a" "1AA", .opCreate "irc.b" "2BB",
         .opDestroy "irc.a" "1AA"]).live.map SrvId.sname).Nodup ∧
    ((runIx ⟨[], [], []⟩
        [.opCreate "irc.a" "1AA", .opCreate "irc.b" "2BB",
         .opDestroy "irc.a" "1AA"]).live.map SrvId.ssid).Nodup ∧
    (runIx ⟨[], [], []⟩
        [.opCreate "irc.a" "1AA", .opCreate "irc.b" "2BB",
         .opDestroy "irc.a" "1AA"]).serverlist =
      (runIx ⟨[], [], []⟩
        [.opCreate "irc.a" "1AA", .opCreate "irc.b" "2BB",
         .opDestroy "irc.a" "1AA"]).live.map (fun x => (x.sname, x)) ∧
    (runIx ⟨[], [], []⟩
        [.opCreate "irc.a" "1AA", .opCreate "irc.b" "2BB",
         .opDestroy "irc.a" "1AA"]).sidlist =
      (runIx ⟨[], [], []⟩
        [.opCreate "irc.a" "1AA", .opCreate "irc.b" "2BB",
         .opDestroy "irc.a" "1AA"]).live.map (fun x => (x.ssid, x)) ∧
    (∀ x ∈ (runIx ⟨[], [], []⟩
        [.opCreate "irc.a" "1AA", .opCreate "irc.b" "2BB",
         .opDestroy "irc.a" "1AA"]).live,
      mapFind x.sname (runIx ⟨[], [], []⟩
        [.opCreate "irc.a" "1AA", .opCreate "irc.b" "2BB",
         .opDestroy "irc.a" "1AA"]).serverlist = some x ∧
      mapFind x.ssid (runIx ⟨[], [], []⟩
        [.opCreate "irc.a" "1AA", .opCreate "irc.b" "2BB",
         .opDestroy "irc.a" "1AA"]).sidlist = some x) ∧
    applyIx (runIx ⟨[], [], []⟩
        [.opCreate "irc.a" "1AA", .opCreate "irc.b" "2BB",
         .opDestroy "irc.a" "1AA"]) .opTouch =
      runIx ⟨[], [], []⟩
        [.opCreate "irc.a" "1AA", .opCreate "irc.b" "2BB",
         .opDestroy "irc.a" "1AA"] :=
  c8_index_exactness ⟨[], [], []⟩
    [.opCreate "irc.a" "1AA", .opCreate "irc.b" "2BB", .opDestroy "irc.a" "1AA"]
    ⟨List.nodup_nil, List.nodup_nil, rfl, rfl⟩ (by decide)

/-- C5 counterexample: at burst duration 12345 ms (which exceeds 10000 ms)
    the notice prints the integer-truncated "12 secs", not seconds with one
    decimal place ("12.3"); and the wording of the notice is identical for
    a direct neighbor of the root and for a deeper node — only the
    snomask class ('l' vs 'L') differs. -/
theorem c5_notice_counterexample :
    burstDisplayValue 12345 = 12 ∧
    burstUnit 12345 = "secs" ∧
    toString (burstDisplayValue 12345) ≠ claimSecsOneDecimal 12345 ∧
    claimSecsOneDecimal 12345 = "12.3" ∧
    (finishBurstNotice true "leaf.example" 12345).text =
      (finishBurstNotice false "leaf.example" 12345).text ∧
    (finishBurstNotice true "leaf.example" 12345).snomask ≠
      (finishBurstNotice false "leaf.example" 12345).snomask := by
  refine ⟨by decide, by decide, by decide, by decide, rfl, by decide⟩

/-- C5 amended: the notice reports the elapsed duration as whole
    (integer-truncated) seconds when it exceeds 10000 ms and as
    milliseconds otherwise, and it distinguishes a direct neighbor of the
    root from a node further down the tree by the notice class tag
    ('l' vs 'L'), the message wording being identical; `FinishBurst`
    emits exactly this notice with `bursttime = ts - StartBurst`. -/
theorem c5_notice_amended (sname : String) (bt now freq ts : Nat) (d : Bool) (B : Srv) :
    (finishBurstNotice true sname bt).snomask = 'l' ∧
    (finishBurstNotice false sname bt).snomask = 'L' ∧
    (finishBurstNotice true sname bt).text = (finishBurstNotice false sname bt).text ∧
    (bt > 10000 → burstDisplayValue bt = bt / 1000 ∧ burstUnit bt = "secs") ∧
    (bt ≤ 10000 → burstDisplayValue bt = bt ∧ burstUnit bt = "msecs") ∧
    (finishBurstNotice d sname bt).text =
      "Received end of netburst from \x02" ++ sname ++ "\x02 (burst time: " ++
        toString (burstDisplayValue bt) ++ " " ++ burstUnit bt ++ ")" ∧
    (finishBurst now freq ts d B).2.notices =
      [finishBurstNotice d B.sname (ts - B.StartBurst)] := by
  refine ⟨rfl, rfl, rfl, fun h => ?_, fun h => ?_, rfl, rfl⟩
  · simp [burstDisplayValue, burstUnit, h]
  · simp [burstDisplayValue, burstUnit, Nat.not_lt.mpr h]

/-- C5 amended witness: the 12345 ms case of a direct neighbor, and the
    400 ms case, evaluated concretely. -/
theorem c5_notice_amended_witness :
    ((finishBurstNotice true "leaf.example" 12345).snomask = 'l' ∧
    (finishBurstNotice false "leaf.example" 12345).snomask = 'L' ∧
    (finishBurstNotice true "leaf.example" 12345).text =
      (finishBurstNotice false "leaf.example" 12345).text ∧
    (12345 > 10000 →
      burstDisplayValue 12345 = 12345 / 1000 ∧ burstUnit 12345 = "secs") ∧
    (12345 ≤ 10000 →
      burstDisplayValue 12345 = 12345 ∧ burstUnit 12345 = "msecs") ∧
    (finishBurstNotice true "leaf.example" 12345).text =
      "Received end of netburst from \x02" ++ "leaf.example" ++
        "\x02 (burst time: " ++ toString (burstDisplayValue 12345) ++ " " ++
        burstUnit 12345 ++ ")" ∧
    (finishBurst 100 60 12745 true (.mk "leaf.example" true 400 0 false [])).2.notices =
      [finishBurstNotice true
        (Srv.sname (.mk "leaf.example" true 400 0 false []))
        (12745 - Srv.StartBurst (.mk "leaf.example" true 400 0 false []))]) ∧
    12345 > 10000 ∧ burstDisplayValue 12345 = 12 :=
  ⟨c5_notice_amended "leaf.example" 12345 100 60 12745 true
    (.mk "leaf.example" true 400 0 false []), by decide, by decide⟩

/-- C1 witness: the chain root→B→D, evaluated concretely. -/
theorem c1_route_recurrence_witness :
    childRoute "D" (.Child "B" .Root) = specRoute (.Child "D" (.Child "B" .Root)) ∧
    GetParent (childRoute "D" (.Child "B" .Root)) = some TreeServer.Root ∧
    childRoute "D" (.Child "B" .Root) ∈ ancestors (.Child "D" (.Child "B" .Root)) ∧
    (∀ x ∈ ancestors (.Child "D" (.Child "B" .Root)),
      GetParent x = some TreeServer.Root → x = childRoute "D" (.Child "B" .Root)) ∧
    childRoute "D" (.Child "B" .Root) = .Child "B" .Root ∧
    childRoute "C" .Root = .Child "C" .Root :=
  c1_route_recurrence "D" (.Child "B" .Root)
